import Mathlib

/-!
Verification of the Gherkin authoring and validation subsystem of the
stable-test repository: path utilities, virtual file-tree model, step-catalog
normalizer, fuzzy matcher, snippet materializer, structural validator and the
tree serializer, shallowly embedded from the TypeScript source.  JavaScript
strings are modelled as `List Char`; machine numbers as `Nat`.
-/

set_option autoImplicit false
set_option maxRecDepth 4000

namespace StableTest

/-- JavaScript whitespace (the ASCII part of the class matched by the regex
token backslash-s and consumed by `String.prototype.trim`). -/
def jsWs (c : Char) : Bool :=
  c = ' ' || c = '\t' || c = '\n' || c = '\r' || c = Char.ofNat 11 || c = Char.ofNat 12

/-- `String.prototype.trim`: drop whitespace from both ends. -/
def trimChars (l : List Char) : List Char :=
  ((l.dropWhile jsWs).reverse.dropWhile jsWs).reverse

/-- `String.prototype.toLowerCase` (ASCII). -/
def lcList (l : List Char) : List Char :=
  l.map Char.toLower

/-- `String.prototype.split(sep)` for a single-character separator: the parts
between separator occurrences, empty parts included (`"" ↦ [""]`). -/
def splitOnChar (sep : Char) : List Char → List (List Char)
  | [] => [[]]
  | c :: rest =>
    if c = sep then [] :: splitOnChar sep rest
    else
      match splitOnChar sep rest with
      | [] => [[c]]
      | p :: ps => (c :: p) :: ps

/-- `Array.prototype.join(sep)` for a single-character separator. -/
def joinChar (sep : Char) : List (List Char) → List Char
  | [] => []
  | [p] => p
  | p :: q :: ps => p ++ sep :: joinChar sep (q :: ps)

/-! ### Path utilities (`src/unnamed/part_001`, lines 26-36) -/

/-- `normalizePathSegment`: trim, then strip leading and trailing slash runs
(the regex `^\/+|\/+$` replaced by the empty string). -/
def normalizePathSegment (l : List Char) : List Char :=
  let t := trimChars l
  ((t.dropWhile (fun c => c = '/')).reverse.dropWhile (fun c => c = '/')).reverse

/-- `normalizeFolderPath`: split on `/`, normalize each segment, drop empty
segments, rejoin with `/`. -/
def normalizeFolderPath (p : List Char) : List Char :=
  joinChar '/' (((splitOnChar '/' p).map normalizePathSegment).filter (fun s => s ≠ []))

/-! ### Structural validator (`src/unnamed/part_001`, lines 135-205) -/

/-- One Monaco marker produced by `validateModel`; the severity is always
`Error` and `startColumn` is always 1 in the source, `endColumn` is the line's
max column (raw line length + 1). -/
structure Marker where
  line : Nat
  message : String
  startColumn : Nat
  endColumn : Nat
deriving Repr, DecidableEq

/-- The mutable locals of `validateModel`. -/
structure VState where
  featureCount : Nat
  inScenario : Bool
  scenarioName : List Char
  scenarioStepCount : Nat
  seenGiven : Bool
  seenWhen : Bool
  markers : List Marker
deriving Repr

def initVState : VState :=
  { featureCount := 0, inScenario := false, scenarioName := [],
    scenarioStepCount := 0, seenGiven := false, seenWhen := false, markers := [] }

/-- The `push` closure: a marker on `line` with `endColumn` the line's max
column, `model.getLineMaxColumn(line)` being the raw line's length + 1. -/
def pushMarker (lines : List (List Char)) (line : Nat) (message : String)
    (ms : List Marker) : List Marker :=
  ms ++ [{ line := line, message := message, startColumn := 1,
           endColumn := (lines.getD (line - 1) []).length + 1 }]

/-- Test of the regex `^<kw>\s*:/i` against a line: the keyword
case-insensitively, optional whitespace, then a colon. -/
def matchHeader (kw : List Char) (line : List Char) : Bool :=
  kw.isPrefixOf (lcList line) &&
    (((lcList line).drop kw.length).dropWhile jsWs).head? = some ':'

/-- Word characters for the regex word-boundary `\b`. -/
def isWordChar (c : Char) : Bool :=
  c.isAlphanum || c = '_'

/-- Match of one alternative of `^(Given|When|Then|And|But)\b/i`:
case-insensitive prefix followed by a word boundary. -/
def matchKw (kw : List Char) (line : List Char) : Bool :=
  (lcList kw).isPrefixOf (lcList line) &&
    match (line.drop kw.length).head? with
    | none => true
    | some c => !isWordChar c

/-- The step-keyword regex: the first alternative that matches; the capture
`stepMatch[1]` is the original-case slice of the line. -/
def stepMatch (line : List Char) : Option (List Char) :=
  match ["Given".data, "When".data, "Then".data, "And".data, "But".data].find?
      (fun kw => matchKw kw line) with
  | none => none
  | some kw => some (line.take kw.length)

/-- `line.replace(/^Scenario\s*:\s*/i, "")`: strip the scenario header prefix
(only called on lines that match the scenario header). -/
def stripScenarioHead (line : List Char) : List Char :=
  if matchHeader "scenario".data line then
    (((line.drop 8).dropWhile jsWs).drop 1).dropWhile jsWs
  else line

/-- The text of the `Scenario "<name>" cannot be empty.` diagnostic, with the
`|| "Unnamed Scenario"` fallback. -/
def emptyScenarioMsg (nm : List Char) : String :=
  "Scenario \"" ++ (if nm = [] then "Unnamed Scenario" else String.mk nm) ++ "\" cannot be empty."

/-- The body of the `lines.forEach` in `validateModel`, one raw line at a
time (`lineNumber` is 1-based). -/
def processLine (lines : List (List Char)) (st : VState) (lineNumber : Nat)
    (rawLine : List Char) : VState :=
  let line := trimChars rawLine
  if line = [] then st
  else if matchHeader "feature".data line then
    let fc := st.featureCount + 1
    let ms :=
      if fc > 1 then pushMarker lines lineNumber "Only one Feature block is allowed." st.markers
      else st.markers
    { st with featureCount := fc, markers := ms }
  else if matchHeader "scenario".data line then
    let ms :=
      if st.inScenario && st.scenarioStepCount = 0 then
        pushMarker lines (if lineNumber - 1 > 0 then lineNumber - 1 else lineNumber)
          (emptyScenarioMsg st.scenarioName) st.markers
      else st.markers
    let nm := stripScenarioHead line
    let nm := if nm = [] then "Unnamed Scenario".data else nm
    { st with
      inScenario := true, scenarioName := nm, scenarioStepCount := 0,
      seenGiven := false, seenWhen := false, markers := ms }
  else
    match stepMatch line with
    | none => st
    | some keyword =>
      let st1 := { st with scenarioStepCount := st.scenarioStepCount + 1 }
      if !st1.inScenario then
        { st1 with markers :=
            pushMarker lines lineNumber "Step cannot appear outside of a Scenario." st1.markers }
      else
        let ms :=
          if keyword = "When".data && !st1.seenGiven then
            pushMarker lines lineNumber "When step cannot appear before a Given step." st1.markers
          else st1.markers
        let ms :=
          if keyword = "Then".data && !st1.seenWhen then
            pushMarker lines lineNumber "Then step cannot appear before a When step." ms
          else ms
        let sg := st1.seenGiven || keyword = "Given".data
        let sw := st1.seenWhen || keyword = "When".data
        { st1 with markers := ms, seenGiven := sg, seenWhen := sw }

/-- `validateModel`: single pass over the document's lines followed by the
final empty-scenario check (`lines.length || 1`). -/
def validateModel (docLines : List String) : List Marker :=
  let ls := docLines.map String.data
  let st := ls.enum.foldl (fun st p => processLine ls st (p.1 + 1) p.2) initVState
  if st.inScenario && st.scenarioStepCount = 0 then
    pushMarker ls (if ls.length = 0 then 1 else ls.length) (emptyScenarioMsg st.scenarioName)
      st.markers
  else st.markers

/-! ### Snippet materializer (`src/unnamed/part_001`, lines 110-118) -/

/-- The body computed by `buildStepSnippet`: `pattern.replace(PLACEHOLDER_REGEX,
...)` where `PLACEHOLDER_REGEX` matches the literal tokens of the four
placeholder types left to right, and `index` is the 1-based tab-stop counter
incremented at each replacement.  `string` expands to a quoted `value`
tab-stop, `double` to `0.0`, `int` and `long` to `0`. -/
def buildBody (i : Nat) (l : List Char) : List Char :=
  match l with
  | '\x7b' :: 's' :: 't' :: 'r' :: 'i' :: 'n' :: 'g' :: '\x7d' :: rest =>
    "\"$\x7b".data ++ (Nat.repr i).data ++ ":value\x7d\"".data ++ buildBody (i + 1) rest
  | '\x7b' :: 'i' :: 'n' :: 't' :: '\x7d' :: rest =>
    "$\x7b".data ++ (Nat.repr i).data ++ ":0\x7d".data ++ buildBody (i + 1) rest
  | '\x7b' :: 'd' :: 'o' :: 'u' :: 'b' :: 'l' :: 'e' :: '\x7d' :: rest =>
    "$\x7b".data ++ (Nat.repr i).data ++ ":0.0\x7d".data ++ buildBody (i + 1) rest
  | '\x7b' :: 'l' :: 'o' :: 'n' :: 'g' :: '\x7d' :: rest =>
    "$\x7b".data ++ (Nat.repr i).data ++ ":0\x7d".data ++ buildBody (i + 1) rest
  | c :: rest => c :: buildBody i rest
  | [] => []

/-- `buildStepSnippet`: the keyword, a single space, then the expanded body. -/
def buildStepSnippet (keyword : String) (pattern : String) : String :=
  String.mk (keyword.data ++ ' ' :: buildBody 1 pattern.data)

/-! ### Tree serialization (`src/src/pages/apps/AppDetail.tsx`, lines 194-210,
identical to `stringifyTree` in `src/unnamed/part_000`, lines 40-62) -/

/-- A `TreeNode` of the serializer.  The JS `content` field is
absent-or-string and both absence and `""` fail the `if (node.content)`
truthiness test, so `""` models both; a folder's absent `children` behaves
like `[]`. -/
inductive TNode where
  | folder (name : String) (children : List TNode)
  | file (name : String) (content : String)

/-- `"  ".repeat(indent)`. -/
def padChars (indent : Nat) : List Char :=
  List.replicate (2 * indent) ' '

/-- `stringifyTree`: folders emit a `[Folder]` line then children at
indent + 1; files emit a `[File]` line then, when the content is truthy, the
content split on newlines with each line prefixed by one extra indent unit,
re-joined and followed by a newline. -/
def stringifyTree (nodes : List TNode) (indent : Nat) : List Char :=
  match nodes with
  | [] => []
  | .folder name children :: rest =>
    padChars indent ++ "[Folder] ".data ++ name.data ++ '\n' ::
      (stringifyTree children (indent + 1) ++ stringifyTree rest indent)
  | .file name content :: rest =>
    let block :=
      if content = "" then []
      else
        joinChar '\n' ((splitOnChar '\n' content.data).map
          (fun ln => padChars indent ++ "  ".data ++ ln)) ++ ['\n']
    padChars indent ++ "[File] ".data ++ name.data ++ '\n' :: (block ++ stringifyTree rest indent)

/-! ### Tree model (`src/unnamed/part_001`, lines 11-17, 38-40 and 68-89) -/

inductive ItemType where
  | folder
  | file
deriving Repr, DecidableEq

/-- A `TreeItem` of the path-addressed tree model. -/
structure TreeItem where
  id : List Char
  name : List Char
  path : List Char
  type : ItemType
deriving Repr, DecidableEq

/-- `toItemId`: the kind, a dash, then the path with every character outside
the class `[a-z0-9]` (case-insensitive) replaced by a dash. -/
def toItemId (ty : ItemType) (path : List Char) : List Char :=
  (match ty with
    | ItemType.folder => "folder-".data
    | ItemType.file => "file-".data) ++
    path.map (fun c => if c.isAlphanum then c else '-')

/-- The `existing` set of `ensureFolderChain`:
`new Set(items.filter((item) => item.type === "folder").map((item) => item.path))`,
modelled as the list of folder paths (membership agrees with the JS Set). -/
def folderPaths (items : List TreeItem) : List (List Char) :=
  (items.filter (fun it => it.type = ItemType.folder)).map (fun it => it.path)

/-- The folder item pushed for a missing chain prefix `r` whose final segment
is `seg`. -/
def mkFolderItem (r seg : List Char) : TreeItem :=
  { id := toItemId ItemType.folder r, name := seg, path := r, type := ItemType.folder }

/-- The `segments.forEach` loop of `ensureFolderChain`: `existing` accumulates
known folder paths, `next` the output collection, `running` the running
path. -/
def ensureGo : List (List Char) → List TreeItem → List Char → List (List Char) → List TreeItem
  | _, next, _, [] => next
  | existing, next, running, seg :: rest =>
    let r := if running = [] then seg else running ++ '/' :: seg
    if r ∈ existing then ensureGo existing next r rest
    else ensureGo (r :: existing) (next ++ [mkFolderItem r seg]) r rest

/-- `ensureFolderChain`: normalize the path, bail out on the empty result,
else walk the segments appending missing folder ancestors. -/
def ensureFolderChain (items : List TreeItem) (folderPath : List Char) : List TreeItem :=
  let normalized := normalizeFolderPath folderPath
  if normalized = [] then items
  else ensureGo (folderPaths items) items [] (splitOnChar '/' normalized)

/-- The chain of `(runningPath, segment)` pairs visited by the
`ensureFolderChain` loop (proof device). -/
def chainSteps (running : List Char) : List (List Char) → List (List Char × List Char)
  | [] => []
  | seg :: rest =>
    let r := if running = [] then seg else running ++ '/' :: seg
    (r, seg) :: chainSteps r rest

/-- The chain pairs whose path is new relative to `existing`, first occurrence
kept (proof device mirroring the loop's set updates). -/
def keepNew : List (List Char) → List (List Char × List Char) → List (List Char × List Char)
  | _, [] => []
  | existing, pr :: rest =>
    if pr.1 ∈ existing then keepNew existing rest
    else pr :: keepNew (pr.1 :: existing) rest

/-- Multiplicity of a Folder node with path `q` in a collection. -/
def folderCountAt (q : List Char) (items : List TreeItem) : Nat :=
  (folderPaths items).countP (fun p => p = q)

/-- A File node at path `"a"` (counterexample input). -/
def fileItemA : TreeItem :=
  { id := toItemId ItemType.file "a".data, name := "a".data, path := "a".data,
    type := ItemType.file }

/-! ### Step-catalog normalizer (`src/unnamed/part_001`, lines 91-108) -/

/-- `step.replace(/\s+/g, " ")`: collapse every maximal whitespace run into a
single space (`prev` records whether the previous character was part of a
run). -/
def collapseWs : Bool → List Char → List Char
  | _, [] => []
  | prev, c :: rest =>
    if jsWs c then
      if prev then collapseWs true rest else ' ' :: collapseWs true rest
    else c :: collapseWs false rest

/-- `normalizeStepPattern`: collapse whitespace runs, then trim. -/
def normalizeStepPattern (l : List Char) : List Char :=
  trimChars (collapseWs false l)

/-- The bucket-then-entry iteration of `flattenSteps` over the flattened
entries: skip empty normalizations, dedupe case-insensitively on the
lowercased normalized form, first seen wins (the JS `Map` keeps insertion
order and `set` fires only on unseen keys). -/
def flattenGo : List (List Char) → List (List Char) → List (List Char)
  | _, [] => []
  | seen, s :: rest =>
    let n := normalizeStepPattern s
    if n = [] then flattenGo seen rest
    else if lcList n ∈ seen then flattenGo seen rest
    else n :: flattenGo (lcList n :: seen) rest

/-- `flattenSteps` on a payload whose `data.steps` buckets are present (a
missing or malformed payload returns `[]` before this point); bucket values
are iterated in insertion order, i.e. the join of the bucket lists. -/
def flattenSteps (buckets : List (List (List Char))) : List (List Char) :=
  flattenGo [] buckets.flatten

/-- The dedup key of an entry: `none` when the normalization is empty, else
the lowercased normalized form (proof device). -/
def stepKey (s : List Char) : Option (List Char) :=
  let n := normalizeStepPattern s
  if n = [] then none else some (lcList n)

/-! ### Fuzzy matcher (`src/unnamed/part_001`, lines 120-133) -/

/-- `query.toLowerCase().trim()`. -/
def normQuery (q : List Char) : List Char :=
  trimChars (lcList q)

/-- `v.indexOf(q)` (with `v.includes(q)` equivalent to a `some` result):
index of the first occurrence of `q` as a contiguous substring. -/
def indexOfSub : List Char → List Char → Option Nat
  | [], q => if q = [] then some 0 else none
  | c :: rest, q =>
    if q.isPrefixOf (c :: rest) then some 0
    else (indexOfSub rest q).map (fun i => i + 1)

/-- The subsequence loop of `fuzzyScore`: advance through `v`, consuming a
query character on match and counting a gap otherwise; `some gaps` when the
whole query is consumed. -/
def subseqGaps : List Char → List Char → Nat → Option Nat
  | _, [], gaps => some gaps
  | [], _ :: _, _ => none
  | c :: v, d :: q, gaps =>
    if c = d then subseqGaps v q gaps else subseqGaps v (d :: q) (gaps + 1)

/-- `fuzzyScore`: `some 0` on an empty normalized query, else the substring
index when `v` contains `q`, else `100 + gaps` when `q` is a subsequence of
`v`, else `none`. -/
def fuzzyScore (query value : List Char) : Option Nat :=
  let q := normQuery query
  let v := lcList value
  if q = [] then some 0
  else
    match indexOfSub v q with
    | some i => some i
    | none =>
      match subseqGaps v q 0 with
      | some gaps => some (100 + gaps)
      | none => none

/-- A candidate whose first substring occurrence of `"ab"` sits at index 101,
past the 100-point tier offset (counterexample input). -/
def longCand : List Char :=
  List.replicate 101 'x' ++ "ab".data

/-! ### Scenario step builder (`src/src/pages/apps/AppDetail.tsx`,
lines 20-93, 148-154 and 319-362) -/

inductive StepKeyword where
  | Given
  | When
  | Then
deriving Repr, DecidableEq

inductive StepSource where
  | existing
  | custom
deriving Repr, DecidableEq

inductive PlaceholderType where
  | string
  | int
  | long
  | double
deriving Repr, DecidableEq

/-- A `ScenarioStep` of the builder. -/
structure ScenarioStep where
  id : String
  keyword : StepKeyword
  source : StepSource
  pattern : Option String
  customText : Option String
  args : List String
deriving Repr, DecidableEq

/-- `extractPlaceholders`: the placeholder types matched left to right by
`pattern.matchAll(PLACEHOLDER_REGEX)`. -/
def extractPlaceholders : List Char → List PlaceholderType
  | '\x7b' :: 's' :: 't' :: 'r' :: 'i' :: 'n' :: 'g' :: '\x7d' :: rest =>
    PlaceholderType.string :: extractPlaceholders rest
  | '\x7b' :: 'i' :: 'n' :: 't' :: '\x7d' :: rest =>
    PlaceholderType.int :: extractPlaceholders rest
  | '\x7b' :: 'l' :: 'o' :: 'n' :: 'g' :: '\x7d' :: rest =>
    PlaceholderType.long :: extractPlaceholders rest
  | '\x7b' :: 'd' :: 'o' :: 'u' :: 'b' :: 'l' :: 'e' :: '\x7d' :: rest =>
    PlaceholderType.double :: extractPlaceholders rest
  | _ :: rest => extractPlaceholders rest
  | [] => []

/-- `defaultArg`. -/
def defaultArg : PlaceholderType → String
  | PlaceholderType.string => "value"
  | PlaceholderType.double => "1.0"
  | _ => "1"

/-- `allowedKeywords`: the keywords legal for the next step of a scenario,
from whether a When or a Then step is already present. -/
def allowedKeywords (steps : List ScenarioStep) : List StepKeyword :=
  let hasWhen := steps.any (fun s => s.keyword = StepKeyword.When)
  let hasThen := steps.any (fun s => s.keyword = StepKeyword.Then)
  if !hasWhen && !hasThen then [StepKeyword.Given, StepKeyword.When]
  else if hasWhen && !hasThen then [StepKeyword.When, StepKeyword.Then]
  else [StepKeyword.Then]

/-- The decision core of `addStep`: `scenario` is the selected scenario's
step list (`none` when no scenario is selected), and the result is either the
validation message set by the early returns or the scenario's new step list.
`newId` stands for the `uid()` call. -/
def addStep (newId : String) (scenario : Option (List ScenarioStep)) (kw : StepKeyword)
    (source : StepSource) (selectedPattern : String) (customStepText : String) :
    Except String (List ScenarioStep) :=
  match scenario with
  | none => Except.error "Select a scenario before adding steps."
  | some steps =>
    if (allowedKeywords steps).contains kw = false then
      Except.error "Invalid keyword order. Steps must follow Given → When → Then."
    else
      match source with
      | StepSource.existing =>
        if selectedPattern = "" then Except.error "Choose a matching step definition."
        else
          let step : ScenarioStep :=
            { id := newId, keyword := kw, source := StepSource.existing,
              pattern := some selectedPattern, customText := none,
              args := (extractPlaceholders selectedPattern.data).map defaultArg }
          Except.ok (steps ++ [step])
      | StepSource.custom =>
        let clean := String.mk (trimChars customStepText.data)
        if clean = "" then Except.error "Custom step text is required."
        else
          let step : ScenarioStep :=
            { id := newId, keyword := kw, source := StepSource.custom,
              pattern := none, customText := some clean, args := [] }
          Except.ok (steps ++ [step])

end StableTest

namespace StableTest

/-- C1: on the document `Feature: X / Scenario: S / "  When click"` the
structural validator produces exactly one diagnostic, on line 3, reading
"When step cannot appear before a Given step." -/
theorem validateModel_when_before_given :
    validateModel ["Feature: X", "Scenario: S", "  When click"] =
      [{ line := 3, message := "When step cannot appear before a Given step.",
         startColumn := 1, endColumn := 13 }] := by
  decide

/-- C2: on the document `Feature: X / Scenario: A / Scenario: B / "  Given x"`
the structural validator produces exactly one diagnostic, anchored at line 2
(the line immediately prior to the second Scenario line), with message
`Scenario "A" cannot be empty.`, and no diagnostic mentions scenario B. -/
theorem validateModel_empty_scenario :
    validateModel ["Feature: X", "Scenario: A", "Scenario: B", "  Given x"] =
      [{ line := 2, message := "Scenario \"A\" cannot be empty.",
         startColumn := 1, endColumn := 12 }] ∧
    ∀ m ∈ validateModel ["Feature: X", "Scenario: A", "Scenario: B", "  Given x"],
      m.message ≠ "Scenario \"B\" cannot be empty." := by
  constructor
  · decide
  · decide

/-- C3 counterexample: expanding the pattern `Given a {string} value of {int}`
with keyword `Given` does NOT produce `Given a "${1:value}" value of ${2:0}`:
the keyword is prefixed to the whole pattern, whose own leading `Given` is not
a placeholder and is kept, so the keyword appears twice. -/
theorem buildStepSnippet_counterexample :
    buildStepSnippet "Given" "Given a {string} value of {int}" =
        "Given Given a \"${1:value}\" value of ${2:0}" ∧
    buildStepSnippet "Given" "Given a {string} value of {int}" ≠
        "Given a \"${1:value}\" value of ${2:0}" := by
  constructor
  · decide
  · decide

/-- C3 amended: expanding the step pattern `Given a {string} value of {int}`
in template mode with keyword `Given` produces exactly
`Given Given a "${1:value}" value of ${2:0}`: the result is the keyword, a
single space, then the pattern with each placeholder replaced by a tab-stop,
numbered from 1 strictly increasing left to right. -/
theorem buildStepSnippet_template :
    buildStepSnippet "Given" "Given a {string} value of {int}" =
      "Given Given a \"${1:value}\" value of ${2:0}" := by
  decide

/-- C4 counterexample: serializing one folder `F` holding one file `G` whose
content is `"Feature: X\n"` does not stop after `    Feature: X\n`: the
trailing newline in the content yields a final empty fragment from the split,
which is emitted as an extra indented line `"    "` followed by a newline. -/
theorem stringifyTree_counterexample :
    String.mk (stringifyTree [.folder "F" [.file "G" "Feature: X\n"]] 0) =
        "[Folder] F\n  [File] G\n    Feature: X\n    \n" ∧
    String.mk (stringifyTree [.folder "F" [.file "G" "Feature: X\n"]] 0) ≠
        "[Folder] F\n  [File] G\n    Feature: X\n" := by
  constructor
  · simp [stringifyTree, padChars, splitOnChar, joinChar]
  · simp [stringifyTree, padChars, splitOnChar, joinChar]

/-- C4 amended: for every folder name and file name, serializing one folder
holding one file with content `"Feature: X\n"` produces the folder line, the
file line at one indent unit, the content line at two indent units, then one
extra line holding only the two-unit indent (from the content's trailing
newline), and nothing else. -/
theorem stringifyTree_single_file (fname gname : List Char) :
    stringifyTree [.folder (String.mk fname) [.file (String.mk gname) "Feature: X\n"]] 0 =
      "[Folder] ".data ++ fname ++ "\n  [File] ".data ++ gname
        ++ "\n    Feature: X\n    \n".data := by
  simp [stringifyTree, padChars, splitOnChar, joinChar]

/-! ### Lemmas on trimming and splitting, towards path-normalization
idempotence -/

theorem trimChars_eq_rdropWhile (l : List Char) :
    trimChars l = List.rdropWhile jsWs (List.dropWhile jsWs l) := rfl

theorem dropWhile_head_false {p : Char → Bool} :
    ∀ {l c t}, List.dropWhile p l = c :: t → p c = false := by
  intro l
  induction l with
  | nil => intro c t h; simp [List.dropWhile] at h
  | cons a l ih =>
    intro c t h
    by_cases ha : p a
    · rw [List.dropWhile_cons_of_pos ha] at h
      exact ih h
    · rw [List.dropWhile_cons_of_neg ha] at h
      cases h
      simpa using ha

theorem dropWhile_eq_self_of_head {p : Char → Bool} {l : List Char}
    (h : ∀ c t, l = c :: t → p c = false) : List.dropWhile p l = l := by
  cases l with
  | nil => simp
  | cons a t =>
    rw [List.dropWhile_cons_of_neg]
    simp [h a t rfl]

theorem mem_of_mem_trimChars {c : Char} {l : List Char} (h : c ∈ trimChars l) : c ∈ l := by
  rw [trimChars_eq_rdropWhile] at h
  exact (List.dropWhile_suffix jsWs).subset
    ((List.rdropWhile_prefix jsWs (List.dropWhile jsWs l)).subset h)

theorem trimChars_idem (l : List Char) : trimChars (trimChars l) = trimChars l := by
  have h1 : List.dropWhile jsWs (trimChars l) = trimChars l := by
    apply dropWhile_eq_self_of_head
    intro c t hct
    obtain ⟨t', ht'⟩ := List.rdropWhile_prefix jsWs (List.dropWhile jsWs l)
    rw [trimChars_eq_rdropWhile] at hct
    rw [hct] at ht'
    exact dropWhile_head_false ht'.symm
  rw [trimChars_eq_rdropWhile, h1, trimChars_eq_rdropWhile, List.rdropWhile_idempotent]

theorem normalizePathSegment_eq (l : List Char) :
    normalizePathSegment l =
      List.rdropWhile (fun c => c = '/') (List.dropWhile (fun c => c = '/') (trimChars l)) := rfl

theorem mem_of_mem_normalizePathSegment {c : Char} {l : List Char}
    (h : c ∈ normalizePathSegment l) : c ∈ l := by
  rw [normalizePathSegment_eq] at h
  exact mem_of_mem_trimChars
    ((List.dropWhile_suffix (fun c => c = '/')).subset
      ((List.rdropWhile_prefix (fun c => c = '/') _).subset h))

theorem normalizePathSegment_of_no_slash {l : List Char} (h : ('/' : Char) ∉ l) :
    normalizePathSegment l = trimChars l := by
  rw [normalizePathSegment_eq]
  have h1 : List.dropWhile (fun c => c = '/') (trimChars l) = trimChars l := by
    apply dropWhile_eq_self_of_head
    intro c t hct
    have : c ∈ l := mem_of_mem_trimChars (by rw [hct]; exact List.mem_cons_self c t)
    simp only [decide_eq_false_iff_not]
    intro hc
    exact h (hc ▸ this)
  rw [h1]
  rw [List.rdropWhile_eq_self_iff]
  intro hl
  have : (trimChars l).getLast hl ∈ l := mem_of_mem_trimChars (List.getLast_mem hl)
  simp only [decide_eq_true_eq]
  intro hc
  exact h (hc ▸ this)

theorem normalizePathSegment_fix {u : List Char} (h : ('/' : Char) ∉ u) :
    normalizePathSegment (normalizePathSegment u) = normalizePathSegment u := by
  rw [normalizePathSegment_of_no_slash h]
  have h2 : ('/' : Char) ∉ trimChars u := fun hc => h (mem_of_mem_trimChars hc)
  rw [normalizePathSegment_of_no_slash h2, trimChars_idem]

theorem splitOnChar_ne_nil (sep : Char) (l : List Char) : splitOnChar sep l ≠ [] := by
  induction l with
  | nil => simp [splitOnChar]
  | cons c rest ih =>
    by_cases hc : c = sep
    · simp [splitOnChar, hc]
    · obtain ⟨p, ps, hps⟩ : ∃ p ps, splitOnChar sep rest = p :: ps := by
        cases h : splitOnChar sep rest with
        | nil => exact absurd h ih
        | cons p ps => exact ⟨p, ps, rfl⟩
      simp [splitOnChar, hc, hps]

theorem splitOnChar_cons_of_ne {sep c : Char} (rest : List Char) (hc : ¬c = sep)
    {p : List Char} {ps : List (List Char)} (hps : splitOnChar sep rest = p :: ps) :
    splitOnChar sep (c :: rest) = (c :: p) :: ps := by
  simp [splitOnChar, hc, hps]

theorem not_mem_of_mem_splitOnChar {sep : Char} :
    ∀ {l s}, s ∈ splitOnChar sep l → sep ∉ s := by
  intro l
  induction l with
  | nil =>
    intro s hs
    simp [splitOnChar] at hs
    simp [hs]
  | cons c rest ih =>
    intro s hs
    by_cases hc : c = sep
    · rw [hc] at hs
      simp only [splitOnChar, if_pos rfl] at hs
      rcases List.mem_cons.mp hs with h | h
      · simp [h]
      · exact ih h
    · obtain ⟨p, ps, hps⟩ : ∃ p ps, splitOnChar sep rest = p :: ps := by
        cases h : splitOnChar sep rest with
        | nil => exact absurd h (splitOnChar_ne_nil sep rest)
        | cons p ps => exact ⟨p, ps, rfl⟩
      rw [splitOnChar_cons_of_ne rest hc hps] at hs
      rcases List.mem_cons.mp hs with h | h
      · have hp : sep ∉ p := ih (hps ▸ List.mem_cons_self p ps)
        rw [h]
        intro hmem
        rcases List.mem_cons.mp hmem with h' | h'
        · exact hc h'.symm
        · exact hp h'
      · exact ih (hps ▸ List.mem_cons_of_mem p h)

theorem splitOnChar_of_no_sep {sep : Char} :
    ∀ {s : List Char}, sep ∉ s → splitOnChar sep s = [s] := by
  intro s
  induction s with
  | nil => intro _; rfl
  | cons c t ih =>
    intro h
    have hc : ¬c = sep := fun hc => h (hc ▸ List.mem_cons_self c t)
    have ht : sep ∉ t := fun hm => h (List.mem_cons_of_mem c hm)
    exact splitOnChar_cons_of_ne t hc (ih ht)

theorem splitOnChar_append_sep {sep : Char} :
    ∀ {x : List Char}, sep ∉ x → ∀ t, splitOnChar sep (x ++ sep :: t) = x :: splitOnChar sep t := by
  intro x
  induction x with
  | nil => intro _ t; simp [splitOnChar]
  | cons c x' ih =>
    intro h t
    have hc : ¬c = sep := fun hc => h (hc ▸ List.mem_cons_self c x')
    have hx' : sep ∉ x' := fun hm => h (List.mem_cons_of_mem c hm)
    have := ih hx' t
    exact splitOnChar_cons_of_ne (x' ++ sep :: t) hc this

theorem splitOnChar_joinChar {sep : Char} :
    ∀ {L : List (List Char)}, L ≠ [] → (∀ s ∈ L, sep ∉ s) →
      splitOnChar sep (joinChar sep L) = L := by
  intro L
  induction L with
  | nil => intro h _; exact absurd rfl h
  | cons x L' ih =>
    intro _ hmem
    cases L' with
    | nil => exact splitOnChar_of_no_sep (hmem x (List.mem_cons_self x []))
    | cons y L'' =>
      have hx : sep ∉ x := hmem x (List.mem_cons_self x (y :: L''))
      have : joinChar sep (x :: y :: L'') = x ++ sep :: joinChar sep (y :: L'') := rfl
      rw [this, splitOnChar_append_sep hx]
      have : splitOnChar sep (joinChar sep (y :: L'')) = y :: L'' :=
        ih (by simp) (fun s hs => hmem s (List.mem_cons_of_mem x hs))
      rw [this]

/-- C7: path normalization is idempotent — for every string `p`,
`normalizeFolderPath (normalizeFolderPath p) = normalizeFolderPath p`. -/
theorem normalizeFolderPath_idem (p : List Char) :
    normalizeFolderPath (normalizeFolderPath p) = normalizeFolderPath p := by
  have hL : ∀ s ∈ ((splitOnChar '/' p).map normalizePathSegment).filter (fun s => s ≠ []),
      ('/' : Char) ∉ s ∧ normalizePathSegment s = s := by
    intro s hs
    obtain ⟨hmap, _⟩ := List.mem_filter.mp hs
    obtain ⟨u, hu, hus⟩ := List.mem_map.mp hmap
    have huns : ('/' : Char) ∉ u := not_mem_of_mem_splitOnChar hu
    have hnoslash : ('/' : Char) ∉ s := by
      intro hc
      exact huns (mem_of_mem_normalizePathSegment (hus ▸ hc))
    exact ⟨hnoslash, by rw [← hus, normalizePathSegment_fix huns]⟩
  by_cases hL0 : ((splitOnChar '/' p).map normalizePathSegment).filter (fun s => s ≠ []) = []
  · show normalizeFolderPath (joinChar '/' _) = _
    rw [hL0]
    rw [show normalizeFolderPath p = joinChar '/'
        (((splitOnChar '/' p).map normalizePathSegment).filter (fun s => s ≠ [])) from rfl, hL0]
    rfl
  · show normalizeFolderPath (joinChar '/' _) = _
    rw [normalizeFolderPath,
      splitOnChar_joinChar hL0 (fun s hs => (hL s hs).1)]
    have hmap : (((splitOnChar '/' p).map normalizePathSegment).filter
        (fun s => s ≠ [])).map normalizePathSegment =
        ((splitOnChar '/' p).map normalizePathSegment).filter (fun s => s ≠ []) := by
      rw [List.map_congr_left (fun s hs => (hL s hs).2)]
      exact List.map_id _
    rw [hmap]
    have hfil : (((splitOnChar '/' p).map normalizePathSegment).filter
        (fun s => s ≠ [])).filter (fun s => s ≠ []) =
        ((splitOnChar '/' p).map normalizePathSegment).filter (fun s => s ≠ []) :=
      List.filter_eq_self.mpr (fun a ha => (List.mem_filter.mp ha).2)
    rw [hfil]
    rfl

/-! ### Lemmas on the folder-chain loop -/

theorem ensureGo_eq : ∀ (segs existing : List (List Char)) (next : List TreeItem)
    (running : List Char),
    ensureGo existing next running segs =
      next ++ (keepNew existing (chainSteps running segs)).map
        (fun pr => mkFolderItem pr.1 pr.2) := by
  intro segs
  induction segs with
  | nil => intro existing next running; simp [ensureGo, chainSteps, keepNew]
  | cons seg rest ih =>
    intro existing next running
    simp only [ensureGo, chainSteps, keepNew]
    by_cases hr : (if running = [] then seg else running ++ '/' :: seg) ∈ existing
    · rw [if_pos hr, if_pos hr, ih]
    · rw [if_neg hr, if_neg hr, ih]
      simp

theorem keepNew_mem : ∀ (l : List (List Char × List Char)) (existing : List (List Char))
    (pr : List Char × List Char),
    pr ∈ keepNew existing l → pr ∈ l ∧ pr.1 ∉ existing := by
  intro l
  induction l with
  | nil => intro e pr h; simp [keepNew] at h
  | cons q rest ih =>
    intro e pr h
    simp only [keepNew] at h
    by_cases hq : q.1 ∈ e
    · rw [if_pos hq] at h
      obtain ⟨h1, h2⟩ := ih e pr h
      exact ⟨List.mem_cons_of_mem q h1, h2⟩
    · rw [if_neg hq] at h
      rcases List.mem_cons.mp h with h | h
      · exact ⟨h ▸ List.mem_cons_self q rest, h ▸ hq⟩
      · obtain ⟨h1, h2⟩ := ih (q.1 :: e) pr h
        exact ⟨List.mem_cons_of_mem q h1, fun hm => h2 (List.mem_cons_of_mem q.1 hm)⟩

theorem keepNew_fst_nodup : ∀ (l : List (List Char × List Char))
    (existing : List (List Char)), ((keepNew existing l).map Prod.fst).Nodup := by
  intro l
  induction l with
  | nil => intro e; simp [keepNew]
  | cons q rest ih =>
    intro e
    simp only [keepNew]
    by_cases hq : q.1 ∈ e
    · rw [if_pos hq]; exact ih e
    · rw [if_neg hq]
      simp only [List.map_cons, List.nodup_cons]
      constructor
      · intro hmem
        obtain ⟨pr, hpr, hfst⟩ := List.mem_map.mp hmem
        exact (keepNew_mem _ _ _ hpr).2 (hfst ▸ List.mem_cons_self q.1 e)
      · exact ih (q.1 :: e)

theorem keepNew_eq_filter : ∀ (l : List (List Char × List Char))
    (existing : List (List Char)), (l.map Prod.fst).Nodup →
    keepNew existing l = l.filter (fun pr => pr.1 ∉ existing) := by
  intro l
  induction l with
  | nil => intro e _; rfl
  | cons q rest ih =>
    intro e hnd
    simp only [List.map_cons, List.nodup_cons] at hnd
    obtain ⟨hqn, hnd'⟩ := hnd
    rw [List.filter_cons]
    simp only [keepNew]
    by_cases hq : q.1 ∈ e
    · rw [if_pos hq, if_neg (by simpa using hq)]
      exact ih e hnd'
    · rw [if_neg hq, if_pos (by simpa using hq)]
      rw [ih (q.1 :: e) hnd']
      congr 1
      apply List.filter_congr
      intro pr hpr
      have hne : pr.1 ≠ q.1 := by
        intro hcontra
        exact hqn (hcontra ▸ List.mem_map.mpr ⟨pr, hpr, rfl⟩)
      simp [List.mem_cons, hne]

theorem ensureFolderChain_eq (items : List TreeItem) (fp : List Char) :
    ensureFolderChain items fp =
      if normalizeFolderPath fp = [] then items
      else ensureGo (folderPaths items) items [] (splitOnChar '/' (normalizeFolderPath fp)) := rfl

theorem folderPaths_append (a b : List TreeItem) :
    folderPaths (a ++ b) = folderPaths a ++ folderPaths b := by
  simp [folderPaths, List.filter_append]

theorem folderPaths_mkFolderItem (l : List (List Char × List Char)) :
    folderPaths (l.map (fun pr => mkFolderItem pr.1 pr.2)) = l.map Prod.fst := by
  induction l with
  | nil => rfl
  | cons q rest ih =>
    simp only [List.map_cons, folderPaths, List.filter_cons] at ih ⊢
    simpa [mkFolderItem] using ih

theorem countP_eq_one_of_nodup_mem {α : Type} [DecidableEq α] {l : List α} {q : α}
    (hnd : l.Nodup) (hmem : q ∈ l) : l.countP (fun x => x = q) = 1 := by
  induction l with
  | nil => simp at hmem
  | cons a t ih =>
    rw [List.countP_cons]
    rcases List.mem_cons.mp hmem with rfl | hmem'
    · have ht : t.countP (fun x => x = q) = 0 :=
        List.countP_eq_zero.mpr (fun b hb => by
          simp only [decide_eq_true_eq]
          intro hbq
          exact (List.nodup_cons.mp hnd).1 (hbq ▸ hb))
      simp [ht]
    · have ha : ¬a = q := fun h => (List.nodup_cons.mp hnd).1 (h ▸ hmem')
      rw [ih (List.nodup_cons.mp hnd).2 hmem']
      simp [ha]

theorem countP_eq_zero_of_not_mem {α : Type} [DecidableEq α] {l : List α} {q : α}
    (h : q ∉ l) : l.countP (fun x => x = q) = 0 :=
  List.countP_eq_zero.mpr (fun b hb => by
    simp only [decide_eq_true_eq]
    intro hbq
    exact h (hbq ▸ hb))

theorem count_fst_filter_new (chain : List (List Char × List Char))
    (E : List (List Char)) (q : List Char) (hnd : (chain.map Prod.fst).Nodup) :
    ((chain.filter (fun pr => pr.1 ∉ E)).map Prod.fst).countP (fun p => p = q) =
      if q ∈ chain.map Prod.fst ∧ q ∉ E then 1 else 0 := by
  by_cases hq : q ∈ chain.map Prod.fst ∧ q ∉ E
  · rw [if_pos hq]
    obtain ⟨hqc, hqe⟩ := hq
    obtain ⟨pr, hpr, hfst⟩ := List.mem_map.mp hqc
    have hprf : pr ∈ chain.filter (fun pr => pr.1 ∉ E) :=
      List.mem_filter.mpr ⟨hpr, by simp [hfst, hqe]⟩
    have hmem : q ∈ (chain.filter (fun pr => pr.1 ∉ E)).map Prod.fst :=
      List.mem_map.mpr ⟨pr, hprf, hfst⟩
    have hnd' : ((chain.filter (fun pr => pr.1 ∉ E)).map Prod.fst).Nodup :=
      hnd.sublist ((List.filter_sublist chain).map Prod.fst)
    exact countP_eq_one_of_nodup_mem hnd' hmem
  · rw [if_neg hq, countP_eq_zero_of_not_mem]
    intro hmem
    obtain ⟨pr, hpr, hfst⟩ := List.mem_map.mp hmem
    obtain ⟨hprc, hpred⟩ := List.mem_filter.mp hpr
    apply hq
    refine ⟨List.mem_map.mpr ⟨pr, hprc, hfst⟩, ?_⟩
    rw [← hfst]
    simpa using hpred

/-- C8: on a collection with at most one Folder node per path,
`ensureFolderChain items "a/b/c"` appends exactly the missing chain prefixes,
as Folder items in root-to-leaf order, leaving the pre-existing entries
unchanged in place, and the result holds Folder entries for `"a"`, `"a/b"`
and `"a/b/c"`, each exactly once. -/
theorem ensureFolderChain_chain (items : List TreeItem)
    (hnd : (folderPaths items).Nodup) :
    (ensureFolderChain items "a/b/c".data =
      items ++ ((chainSteps [] (splitOnChar '/' "a/b/c".data)).filter
          (fun pr => pr.1 ∉ folderPaths items)).map (fun pr => mkFolderItem pr.1 pr.2)) ∧
    ∀ q ∈ ["a".data, "a/b".data, "a/b/c".data],
      folderCountAt q (ensureFolderChain items "a/b/c".data) = 1 := by
  have hnorm : normalizeFolderPath "a/b/c".data = "a/b/c".data := by decide
  have hne : normalizeFolderPath "a/b/c".data ≠ [] := by decide
  have hfstnodup : ((chainSteps [] (splitOnChar '/' "a/b/c".data)).map Prod.fst).Nodup := by
    decide
  have hmain : ensureFolderChain items "a/b/c".data =
      items ++ ((chainSteps [] (splitOnChar '/' "a/b/c".data)).filter
        (fun pr => pr.1 ∉ folderPaths items)).map (fun pr => mkFolderItem pr.1 pr.2) := by
    rw [ensureFolderChain_eq, hnorm]
    rw [if_neg (show ¬("a/b/c".data = ([] : List Char)) by decide)]
    rw [ensureGo_eq, keepNew_eq_filter _ _ hfstnodup]
  refine ⟨hmain, ?_⟩
  intro q hq
  have hsplit : folderCountAt q (ensureFolderChain items "a/b/c".data) =
      (folderPaths items).countP (fun p => p = q) +
      (((chainSteps [] (splitOnChar '/' "a/b/c".data)).filter
          (fun pr => pr.1 ∉ folderPaths items)).map Prod.fst).countP (fun p => p = q) := by
    rw [folderCountAt, hmain, folderPaths_append, folderPaths_mkFolderItem,
      List.countP_append]
  rw [hsplit, count_fst_filter_new _ _ _ hfstnodup]
  simp only [List.mem_cons, List.not_mem_nil, or_false] at hq
  by_cases hmem : q ∈ folderPaths items
  · rw [countP_eq_one_of_nodup_mem hnd hmem, if_neg (by simp [hmem])]
  · have hqc : q ∈ (chainSteps [] (splitOnChar '/' "a/b/c".data)).map Prod.fst := by
      rcases hq with rfl | rfl | rfl <;> decide
    rw [countP_eq_zero_of_not_mem hmem, if_pos ⟨hqc, hmem⟩]

/-- C9 counterexample: a collection holding a single File node at path `"a"`
has unique paths, but `ensureFolderChain` on `"a"` only consults Folder paths,
appends a Folder at `"a"`, and the result holds two nodes with the same
path. -/
theorem ensureFolderChain_dup_path :
    (([fileItemA].map (fun it => it.path)).Nodup) ∧
    ¬ (((ensureFolderChain [fileItemA] "a".data).map (fun it => it.path)).Nodup) := by
  constructor
  · decide
  · decide

/-- C9 amended: path uniqueness is preserved by `ensureFolderChain` provided
no File node's path coincides with one of the chain's prefixes: for every
collection with at most one node per path in which no File node's path equals
a running prefix of the (normalized) folder path, the returned collection
again has at most one node per path. -/
theorem ensureFolderChain_path_nodup (items : List TreeItem) (fp : List Char)
    (hnd : (items.map (fun it => it.path)).Nodup)
    (hfile : ∀ it ∈ items, it.type = ItemType.file →
      it.path ∉ (chainSteps [] (splitOnChar '/' (normalizeFolderPath fp))).map Prod.fst) :
    ((ensureFolderChain items fp).map (fun it => it.path)).Nodup := by
  rw [ensureFolderChain_eq]
  by_cases hn : normalizeFolderPath fp = []
  · rw [if_pos hn]; exact hnd
  · rw [if_neg hn, ensureGo_eq, List.map_append]
    have hmk : ((keepNew (folderPaths items)
        (chainSteps [] (splitOnChar '/' (normalizeFolderPath fp)))).map
          (fun pr => mkFolderItem pr.1 pr.2)).map (fun it => it.path) =
        (keepNew (folderPaths items)
          (chainSteps [] (splitOnChar '/' (normalizeFolderPath fp)))).map Prod.fst := by
      simp [mkFolderItem]
    rw [hmk, List.nodup_append]
    refine ⟨hnd, keepNew_fst_nodup _ _, ?_⟩
    intro q hq1 hq2
    obtain ⟨it, hit, hpath⟩ := List.mem_map.mp hq1
    obtain ⟨pr, hpr, hfst⟩ := List.mem_map.mp hq2
    obtain ⟨hprc, hnew⟩ := keepNew_mem _ _ _ hpr
    cases hty : it.type with
    | folder =>
      apply hnew
      rw [hfst]
      rw [← hpath]
      exact List.mem_map.mpr ⟨it, List.mem_filter.mpr ⟨hit, by simp [hty]⟩, rfl⟩
    | file =>
      apply hfile it hit hty
      rw [hpath, ← hfst]
      exact List.mem_map.mpr ⟨pr, hprc, rfl⟩

/-- C9 amended witness: one Folder at `"a"`, folder path `"a/b"`. -/
theorem ensureFolderChain_path_nodup_witness :
    ((([mkFolderItem "a".data "a".data] : List TreeItem).map
        (fun it => it.path)).Nodup ∧
      (∀ it ∈ ([mkFolderItem "a".data "a".data] : List TreeItem),
        it.type = ItemType.file →
        it.path ∉ (chainSteps []
          (splitOnChar '/' (normalizeFolderPath "a/b".data))).map Prod.fst)) ∧
    ((ensureFolderChain [mkFolderItem "a".data "a".data] "a/b".data).map
        (fun it => it.path)).Nodup :=
  ⟨⟨by decide, by decide⟩,
    ensureFolderChain_path_nodup [mkFolderItem "a".data "a".data] "a/b".data
      (by decide) (by decide)⟩

/-! ### Lemmas on the step-catalog normalizer -/

theorem stepKey_eq_some {s κ : List Char} (h : stepKey s = some κ) :
    normalizeStepPattern s ≠ [] ∧ lcList (normalizeStepPattern s) = κ := by
  by_cases hz : normalizeStepPattern s = []
  · simp [stepKey, hz] at h
  · simp [stepKey, hz] at h
    exact ⟨hz, h⟩

theorem flattenGo_mem : ∀ (l seen : List (List Char)) (e : List Char),
    e ∈ flattenGo seen l → lcList e ∉ seen ∧ e ≠ [] := by
  intro l
  induction l with
  | nil => intro seen e h; simp [flattenGo] at h
  | cons s rest ih =>
    intro seen e h
    simp only [flattenGo] at h
    by_cases hn : normalizeStepPattern s = []
    · rw [if_pos hn] at h
      exact ih seen e h
    · rw [if_neg hn] at h
      by_cases hk : lcList (normalizeStepPattern s) ∈ seen
      · rw [if_pos hk] at h
        exact ih seen e h
      · rw [if_neg hk] at h
        rcases List.mem_cons.mp h with rfl | h'
        · exact ⟨hk, hn⟩
        · obtain ⟨h1, h2⟩ := ih _ e h'
          exact ⟨fun hm => h1 (List.mem_cons_of_mem _ hm), h2⟩

theorem flattenGo_pairwise : ∀ (l seen : List (List Char)),
    (flattenGo seen l).Pairwise (fun a b => lcList a ≠ lcList b) := by
  intro l
  induction l with
  | nil => intro seen; simp [flattenGo]
  | cons s rest ih =>
    intro seen
    simp only [flattenGo]
    by_cases hn : normalizeStepPattern s = []
    · rw [if_pos hn]; exact ih seen
    · rw [if_neg hn]
      by_cases hk : lcList (normalizeStepPattern s) ∈ seen
      · rw [if_pos hk]; exact ih seen
      · rw [if_neg hk]
        refine List.Pairwise.cons ?_ (ih _)
        intro b hb heq
        exact (flattenGo_mem rest _ b hb).1 (heq ▸ List.mem_cons_self _ _)

theorem flattenGo_exists : ∀ (l seen : List (List Char)) (κ : List Char),
    (∃ s ∈ l, stepKey s = some κ) → κ ∉ seen →
    ∃ e ∈ flattenGo seen l, lcList e = κ := by
  intro l
  induction l with
  | nil => intro seen κ h _; simp at h
  | cons s rest ih =>
    intro seen κ h hκ
    simp only [flattenGo]
    by_cases hs : stepKey s = some κ
    · obtain ⟨hn, hkey⟩ := stepKey_eq_some hs
      rw [if_neg hn, if_neg (hkey ▸ hκ)]
      exact ⟨normalizeStepPattern s, List.mem_cons_self _ _, hkey⟩
    · have h' : ∃ u ∈ rest, stepKey u = some κ := by
        rcases h with ⟨u, hu, hku⟩
        rcases List.mem_cons.mp hu with rfl | hu'
        · exact absurd hku hs
        · exact ⟨u, hu', hku⟩
      by_cases hz : normalizeStepPattern s = []
      · rw [if_pos hz]; exact ih seen κ h' hκ
      · rw [if_neg hz]
        by_cases hk : lcList (normalizeStepPattern s) ∈ seen
        · rw [if_pos hk]; exact ih seen κ h' hκ
        · rw [if_neg hk]
          have hκ' : κ ∉ lcList (normalizeStepPattern s) :: seen := by
            intro hm
            rcases List.mem_cons.mp hm with heq | hm'
            · apply hs
              simp [stepKey, hz, heq]
            · exact hκ hm'
          obtain ⟨e, he, hke⟩ := ih _ κ h' hκ'
          exact ⟨e, List.mem_cons_of_mem _ he, hke⟩

theorem flattenGo_first : ∀ (l seen : List (List Char)) (κ e : List Char),
    κ ∉ seen → e ∈ flattenGo seen l → lcList e = κ →
    ∃ s, l.find? (fun u => stepKey u = some κ) = some s ∧
      e = normalizeStepPattern s := by
  intro l
  induction l with
  | nil => intro seen κ e _ h _; simp [flattenGo] at h
  | cons s rest ih =>
    intro seen κ e hκ he hke
    by_cases hs : stepKey s = some κ
    · obtain ⟨hn, hkey⟩ := stepKey_eq_some hs
      refine ⟨s, List.find?_cons_of_pos _ (by simp [hs]), ?_⟩
      simp only [flattenGo] at he
      rw [if_neg hn, if_neg (hkey ▸ hκ)] at he
      rcases List.mem_cons.mp he with rfl | he'
      · rfl
      · exact absurd (by rw [hke, ← hkey]; exact List.mem_cons_self _ _)
          ((flattenGo_mem rest _ e he').1)
    · rw [List.find?_cons_of_neg _ (by simp [hs])]
      simp only [flattenGo] at he
      by_cases hz : normalizeStepPattern s = []
      · rw [if_pos hz] at he
        exact ih seen κ e hκ he hke
      · rw [if_neg hz] at he
        by_cases hk : lcList (normalizeStepPattern s) ∈ seen
        · rw [if_pos hk] at he
          exact ih seen κ e hκ he hke
        · rw [if_neg hk] at he
          rcases List.mem_cons.mp he with rfl | he'
          · exact absurd (by simp [stepKey, hz, hke]) hs
          · refine ih _ κ e ?_ he' hke
            intro hm
            rcases List.mem_cons.mp hm with heq | hm'
            · apply hs
              simp [stepKey, hz, heq]
            · exact hκ hm'

theorem flattenGo_sublist : ∀ (l seen : List (List Char)),
    (flattenGo seen l).Sublist (l.map normalizeStepPattern) := by
  intro l
  induction l with
  | nil => intro seen; simp [flattenGo]
  | cons s rest ih =>
    intro seen
    simp only [flattenGo, List.map_cons]
    by_cases hz : normalizeStepPattern s = []
    · rw [if_pos hz]; exact (ih seen).cons _
    · rw [if_neg hz]
      by_cases hk : lcList (normalizeStepPattern s) ∈ seen
      · rw [if_pos hk]; exact (ih seen).cons _
      · rw [if_neg hk]; exact (ih _).cons₂ _

theorem countP_le_one_of_pairwise_key {l : List (List Char)} {κ : List Char}
    (h : l.Pairwise (fun a b => lcList a ≠ lcList b)) :
    l.countP (fun e => lcList e = κ) ≤ 1 := by
  induction l with
  | nil => simp
  | cons a t ih =>
    rw [List.countP_cons]
    obtain ⟨ha, ht⟩ := List.pairwise_cons.mp h
    by_cases hk : lcList a = κ
    · have h0 : t.countP (fun e => lcList e = κ) = 0 :=
        List.countP_eq_zero.mpr (fun b hb => by
          simp only [decide_eq_true_eq]
          intro hbk
          exact ha b hb (by rw [hk, hbk]))
      simp [h0, hk]
    · simpa [hk] using ih ht

/-- C5: on every payload whose buckets (joined in iteration order) contain
both `"Given a {int} value"` and `"given a {int} value"`, the normalizer
emits exactly one entry with that case-insensitive key, its casing is the
first-seen one (the normalization of the first entry whose key matches), the
output order is the bucket-then-entry iteration order (a sublist of the
normalized input), keys are pairwise distinct case-insensitively, and no
entry is empty. -/
theorem flattenSteps_dedup (buckets : List (List (List Char)))
    (hA : "Given a {int} value".data ∈ buckets.flatten)
    (_hB : "given a {int} value".data ∈ buckets.flatten) :
    (flattenSteps buckets).countP
        (fun e => lcList e = "given a {int} value".data) = 1 ∧
    (∃ s, buckets.flatten.find?
          (fun u => stepKey u = some "given a {int} value".data) = some s ∧
        ∀ e ∈ flattenSteps buckets,
          lcList e = "given a {int} value".data → e = normalizeStepPattern s) ∧
    (flattenSteps buckets).Sublist (buckets.flatten.map normalizeStepPattern) ∧
    (flattenSteps buckets).Pairwise (fun a b => lcList a ≠ lcList b) ∧
    ∀ e ∈ flattenSteps buckets, e ≠ [] := by
  have hkeyA : stepKey "Given a {int} value".data =
      some "given a {int} value".data := by decide
  have hex : ∃ s ∈ buckets.flatten,
      stepKey s = some "given a {int} value".data := ⟨_, hA, hkeyA⟩
  have hnotin : "given a {int} value".data ∉ ([] : List (List Char)) := by simp
  obtain ⟨e, he, hke⟩ := flattenGo_exists buckets.flatten [] _ hex hnotin
  refine ⟨?_, ?_, flattenGo_sublist _ _, flattenGo_pairwise _ _,
    fun e he => (flattenGo_mem _ _ e he).2⟩
  · have hle := countP_le_one_of_pairwise_key
      (κ := "given a {int} value".data) (flattenGo_pairwise buckets.flatten [])
    have hge : 0 < (flattenGo [] buckets.flatten).countP
        (fun e => lcList e = "given a {int} value".data) := by
      rw [List.countP_pos_iff]
      exact ⟨e, he, by simp [hke]⟩
    show (flattenGo [] buckets.flatten).countP _ = 1
    omega
  · obtain ⟨s, hfind, hes⟩ := flattenGo_first buckets.flatten [] _ e hnotin he hke
    refine ⟨s, hfind, ?_⟩
    intro e' he' hke'
    obtain ⟨s', hfind', hes'⟩ := flattenGo_first buckets.flatten [] _ e' hnotin he' hke'
    rw [hfind] at hfind'
    have hss : s = s' := by injection hfind'
    rw [hes', ← hss]

/-- C5 witness: two buckets, each holding one of the two casings. -/
theorem flattenSteps_dedup_witness :
    ("Given a {int} value".data ∈
        ([["Given a {int} value".data], ["given a {int} value".data]] :
          List (List (List Char))).flatten ∧
      "given a {int} value".data ∈
        ([["Given a {int} value".data], ["given a {int} value".data]] :
          List (List (List Char))).flatten) ∧
    ((flattenSteps [["Given a {int} value".data], ["given a {int} value".data]]).countP
        (fun e => lcList e = "given a {int} value".data) = 1 ∧
      (∃ s, ([["Given a {int} value".data],
            ["given a {int} value".data]] : List (List (List Char))).flatten.find?
            (fun u => stepKey u = some "given a {int} value".data) = some s ∧
          ∀ e ∈ flattenSteps [["Given a {int} value".data], ["given a {int} value".data]],
            lcList e = "given a {int} value".data → e = normalizeStepPattern s) ∧
      (flattenSteps [["Given a {int} value".data], ["given a {int} value".data]]).Sublist
        (([["Given a {int} value".data],
          ["given a {int} value".data]] : List (List (List Char))).flatten.map
            normalizeStepPattern) ∧
      (flattenSteps [["Given a {int} value".data], ["given a {int} value".data]]).Pairwise
        (fun a b => lcList a ≠ lcList b) ∧
      ∀ e ∈ flattenSteps [["Given a {int} value".data], ["given a {int} value".data]],
        e ≠ []) :=
  ⟨⟨by decide, by decide⟩, flattenSteps_dedup _ (by decide) (by decide)⟩

/-- C8 witness: a collection holding the Folder `"a"` (paths of folders
deduplicated), chained to `"a/b/c"`. -/
theorem ensureFolderChain_chain_witness :
    (folderPaths [mkFolderItem "a".data "a".data]).Nodup ∧
    ((ensureFolderChain [mkFolderItem "a".data "a".data] "a/b/c".data =
        [mkFolderItem "a".data "a".data] ++
          ((chainSteps [] (splitOnChar '/' "a/b/c".data)).filter
            (fun pr => pr.1 ∉ folderPaths [mkFolderItem "a".data "a".data])).map
              (fun pr => mkFolderItem pr.1 pr.2)) ∧
      ∀ q ∈ ["a".data, "a/b".data, "a/b/c".data],
        folderCountAt q (ensureFolderChain [mkFolderItem "a".data "a".data]
          "a/b/c".data) = 1) :=
  ⟨by decide, ensureFolderChain_chain [mkFolderItem "a".data "a".data] (by decide)⟩

/-- C6 counterexample: for query `"ab"`, the candidate `longCand` (101 `x`s
then `ab`) matches as a contiguous substring with score 101, while `"axb"`
matches only as a subsequence with score 100 + 1 = 101; the substring-matched
candidate's score is NOT strictly lower. -/
theorem fuzzyScore_tier_counterexample :
    normQuery "ab".data ≠ [] ∧
    indexOfSub (lcList longCand) (normQuery "ab".data) = some 101 ∧
    indexOfSub (lcList "axb".data) (normQuery "ab".data) = none ∧
    fuzzyScore "ab".data longCand = some 101 ∧
    fuzzyScore "ab".data "axb".data = some 101 ∧
    ¬(101 : Nat) < 101 :=
  ⟨by decide, by decide, by decide, by decide, by decide, by decide⟩

/-- C6 amended: for every non-empty query and every pair of candidates where
one matches the query as a contiguous substring at an index below 100 and the
other matches only as a subsequence, the substring-matched candidate's score
(the index) is strictly lower than the subsequence-matched candidate's score
(100 + gaps), so the ascending sort ranks it first; the proviso `index < 100`
is forced since long candidates can push the substring index past the
100-point tier offset. -/
theorem fuzzyScore_substring_tier (q v₁ v₂ : List Char) (i s₂ : Nat)
    (hq : normQuery q ≠ [])
    (h1 : indexOfSub (lcList v₁) (normQuery q) = some i)
    (hi : i < 100)
    (h2 : indexOfSub (lcList v₂) (normQuery q) = none)
    (h3 : fuzzyScore q v₂ = some s₂) :
    fuzzyScore q v₁ = some i ∧ i < s₂ := by
  constructor
  · show (if normQuery q = [] then some 0 else _) = some i
    rw [if_neg hq, h1]
  · simp only [fuzzyScore] at h3
    rw [if_neg hq, h2] at h3
    cases hg : subseqGaps (lcList v₂) (normQuery q) 0 with
    | none => rw [hg] at h3; simp at h3
    | some g =>
      rw [hg] at h3
      simp only [Option.some.injEq] at h3
      omega

/-- C6 amended witness: query `"ab"`, substring candidate `"xab"` (index 1),
subsequence candidate `"axb"` (score 101). -/
theorem fuzzyScore_substring_tier_witness :
    (normQuery "ab".data ≠ [] ∧
      indexOfSub (lcList "xab".data) (normQuery "ab".data) = some 1 ∧
      (1 : Nat) < 100 ∧
      indexOfSub (lcList "axb".data) (normQuery "ab".data) = none ∧
      fuzzyScore "ab".data "axb".data = some 101) ∧
    (fuzzyScore "ab".data "xab".data = some 1 ∧ (1 : Nat) < 101) :=
  ⟨⟨by decide, by decide, by decide, by decide, by decide⟩,
    fuzzyScore_substring_tier "ab".data "xab".data "axb".data 1 101
      (by decide) (by decide) (by decide) (by decide) (by decide)⟩

/-- C10: for a scenario whose step list has no When and no Then step the legal
keywords are exactly `[Given, When]`, and `addStep` accepts a When step as the
very first step of an empty scenario (with an existing pattern selected and no
prior Given), appending it to the scenario. -/
theorem allowedKeywords_when_first :
    (∀ steps : List ScenarioStep,
        (∀ s ∈ steps, s.keyword ≠ StepKeyword.When ∧ s.keyword ≠ StepKeyword.Then) →
        allowedKeywords steps = [StepKeyword.Given, StepKeyword.When]) ∧
    (∀ newId pat ct : String, pat ≠ "" →
        addStep newId (some []) StepKeyword.When StepSource.existing pat ct =
          Except.ok [ScenarioStep.mk newId StepKeyword.When StepSource.existing
            (some pat) none ((extractPlaceholders pat.data).map defaultArg)]) := by
  constructor
  · intro steps h
    have hw : steps.any (fun s => s.keyword = StepKeyword.When) = false := by
      rw [List.any_eq_false]
      intro s hs
      simp [(h s hs).1]
    have ht : steps.any (fun s => s.keyword = StepKeyword.Then) = false := by
      rw [List.any_eq_false]
      intro s hs
      simp [(h s hs).2]
    simp [allowedKeywords, hw, ht]
  · intro newId pat ct hpat
    simp only [addStep]
    rw [if_neg (by decide :
      ¬((allowedKeywords ([] : List ScenarioStep)).contains StepKeyword.When = false))]
    rw [if_neg hpat]
    simp

/-- C10 witness: the empty scenario and the pattern `"Given a {int} value"`. -/
theorem allowedKeywords_when_first_witness :
    ((∀ s ∈ ([] : List ScenarioStep),
        s.keyword ≠ StepKeyword.When ∧ s.keyword ≠ StepKeyword.Then) ∧
      ("Given a {int} value" : String) ≠ "") ∧
    (allowedKeywords [] = [StepKeyword.Given, StepKeyword.When] ∧
      addStep "id1" (some []) StepKeyword.When StepSource.existing
          "Given a {int} value" "" =
        Except.ok [ScenarioStep.mk "id1" StepKeyword.When StepSource.existing
          (some "Given a {int} value") none
          ((extractPlaceholders "Given a {int} value".data).map defaultArg)]) :=
  ⟨⟨by simp, by decide⟩,
    allowedKeywords_when_first.1 [] (by simp),
    allowedKeywords_when_first.2 "id1" "Given a {int} value" "" (by decide)⟩

end StableTest
